import Mathlib

/-!
Verification of the template-posting bot (`bot.py`) against its
natural-language specification.  The data model and the operations are a
shallow embedding of the Python source: dictionaries become association
lists over `String` keys (preserving Python's insertion-order semantics
of `dict`, `setdefault`, in-place update and `del`), Python integers
become `Int`/`Nat`, and fallible paths are made explicit as sum types.
-/

namespace TgBot

/-! ### Association-list primitives (the embedding of Python `dict`)

Keys are strings; `alGet` is `d.get(k)` / `k in d`, `alSet` is
`d[k] = v` (in-place overwrite keeps the key's position, a fresh key is
appended at the end, matching CPython's insertion order), `alErase` is
`del d[k]`, and `alSetdefault` is `d.setdefault(k, v)` returning both
the updated dict and the (aliased) value, which callers thread
explicitly where Python mutates through the alias. -/

def alGet {α : Type _} (k : String) : List (String × α) → Option α
  | [] => none
  | (a, v) :: xs => if a = k then some v else alGet k xs

def alGetD {α : Type _} (k : String) (l : List (String × α)) (d : α) : α :=
  (alGet k l).getD d

def alSet {α : Type _} (k : String) (v : α) : List (String × α) → List (String × α)
  | [] => [(k, v)]
  | (a, w) :: xs => if a = k then (k, v) :: xs else (a, w) :: alSet k v xs

def alErase {α : Type _} (k : String) : List (String × α) → List (String × α)
  | [] => []
  | (a, w) :: xs => if a = k then xs else (a, w) :: alErase k xs

def alSetdefault {α : Type _} (k : String) (d : α) (l : List (String × α)) :
    List (String × α) × α :=
  match alGet k l with
  | some v => (l, v)
  | none => (l ++ [(k, d)], d)

def alKeys {α : Type _} (l : List (String × α)) : List String :=
  l.map Prod.fst

theorem alGet_mem {α : Type _} {k : String} {v : α} :
    ∀ {l : List (String × α)}, alGet k l = some v → (k, v) ∈ l := by
  intro l
  induction l with
  | nil => intro h; simp [alGet] at h
  | cons q xs ih =>
    obtain ⟨a, w⟩ := q
    intro h
    rw [alGet] at h
    by_cases hak : a = k
    · rw [if_pos hak] at h
      simp only [Option.some.injEq] at h
      subst hak
      subst h
      exact List.mem_cons_self _ _
    · rw [if_neg hak] at h
      exact List.mem_cons_of_mem _ (ih h)

theorem mem_alSet {α : Type _} {k : String} {v : α} {p : String × α} :
    ∀ {l : List (String × α)}, p ∈ alSet k v l → p = (k, v) ∨ p ∈ l := by
  intro l
  induction l with
  | nil => intro h; simp [alSet] at h; simp [h]
  | cons q xs ih =>
    intro h
    rw [alSet] at h
    split at h
    · rcases List.mem_cons.mp h with h1 | h1
      · exact Or.inl h1
      · exact Or.inr (List.mem_cons_of_mem _ h1)
    · rcases List.mem_cons.mp h with h1 | h1
      · exact Or.inr (h1 ▸ List.mem_cons_self _ _)
      · rcases ih h1 with h2 | h2
        · exact Or.inl h2
        · exact Or.inr (List.mem_cons_of_mem _ h2)

theorem alSet_ne_nil {α : Type _} (k : String) (v : α) :
    ∀ (l : List (String × α)), alSet k v l ≠ [] := by
  intro l
  cases l with
  | nil => simp [alSet]
  | cons q xs =>
    rw [alSet]
    split <;> simp

theorem mem_alErase {α : Type _} {k : String} {p : String × α} :
    ∀ {l : List (String × α)}, p ∈ alErase k l → p ∈ l := by
  intro l
  induction l with
  | nil => intro h; simp [alErase] at h
  | cons q xs ih =>
    intro h
    rw [alErase] at h
    split at h
    · exact List.mem_cons_of_mem _ h
    · rcases List.mem_cons.mp h with h1 | h1
      · exact h1 ▸ List.mem_cons_self _ _
      · exact List.mem_cons_of_mem _ (ih h1)

theorem alSet_of_alGet_none {α : Type _} {k : String} (v : α) :
    ∀ {l : List (String × α)}, alGet k l = none → alSet k v l = l ++ [(k, v)] := by
  intro l
  induction l with
  | nil => intro _; simp [alSet]
  | cons q xs ih =>
    intro h
    rw [alGet] at h
    rw [alSet]
    split at h
    · exact absurd h (by simp)
    · rename_i hne
      rw [if_neg hne, ih h]
      simp

theorem alSet_append_self {α : Type _} {k : String} (v d : α) :
    ∀ {l : List (String × α)}, alGet k l = none →
      alSet k v (l ++ [(k, d)]) = l ++ [(k, v)] := by
  intro l
  induction l with
  | nil => intro _; simp [alSet]
  | cons q xs ih =>
    intro h
    rw [alGet] at h
    split at h
    · exact absurd h (by simp)
    · rename_i hne
      rw [List.cons_append, alSet, if_neg hne, ih h]
      simp

theorem alGet_append {α : Type _} (k : String) :
    ∀ (l₁ l₂ : List (String × α)),
      alGet k (l₁ ++ l₂) = ((alGet k l₁).rec (alGet k l₂) fun v => some v) := by
  intro l₁ l₂
  induction l₁ with
  | nil => simp [alGet]
  | cons q xs ih =>
    rw [List.cons_append, alGet, alGet]
    split <;> simp [ih]

theorem alGet_append_left {α : Type _} {k : String} {v : α}
    {l₁ : List (String × α)} (l₂ : List (String × α)) (h : alGet k l₁ = some v) :
    alGet k (l₁ ++ l₂) = some v := by
  rw [alGet_append, h]

theorem alGet_append_right {α : Type _} {k : String} {l₁ : List (String × α)}
    (l₂ : List (String × α)) (h : alGet k l₁ = none) :
    alGet k (l₁ ++ l₂) = alGet k l₂ := by
  rw [alGet_append, h]

/-! ### The template data model (`bot.py` 55-61, 123-138)

A stored template entry is the dict
`{"text": text, "photo": photo, "buttons": matrix}` written by
`finalize_template`; a button is the dict `{"t": label, "u": url}`.
The per-actor template tree is `{game: {cheat: {name: entry}}}`. -/

structure TplButton where
  t : String
  u : String
deriving DecidableEq

structure TplEntry where
  text : String
  photo : Option String
  buttons : List (List TplButton)
deriving DecidableEq

abbrev NameMap : Type := List (String × TplEntry)

abbrev CheatMap : Type := List (String × NameMap)

abbrev TemplateTree : Type := List (String × CheatMap)

instance : DecidableEq NameMap := inferInstance

instance : DecidableEq CheatMap := inferInstance

instance : DecidableEq TemplateTree := inferInstance

instance : DecidableEq (List (String × TemplateTree)) := inferInstance

/-! ### Sorted listings (`list_games` / `list_cheats` / `list_names`,
`bot.py` 311-330)

Python renders each menu from `sorted(keys, key=str.lower)`: a stable
ascending sort comparing lowercased keys, embedded as an insertion
sort.  `String.toLower` models `str.lower` (exact on ASCII names). -/

def insLower (x : String) : List String → List String
  | [] => [x]
  | y :: ys => if x.toLower < y.toLower then x :: y :: ys else y :: insLower x ys

def sortedLower (l : List String) : List String := l.foldr insLower []

theorem length_insLower (x : String) :
    ∀ (l : List String), (insLower x l).length = l.length + 1 := by
  intro l
  induction l with
  | nil => rfl
  | cons y ys ih =>
    rw [insLower]
    split
    · simp
    · simp [ih]

theorem length_sortedLower :
    ∀ (l : List String), (sortedLower l).length = l.length := by
  intro l
  induction l with
  | nil => rfl
  | cons y ys ih =>
    show (insLower y (sortedLower ys)).length = ys.length + 1
    rw [length_insLower, ih]

theorem sortedLower_ne_nil {l : List String} (h : l ≠ []) : sortedLower l ≠ [] := by
  intro hnil
  have := length_sortedLower l
  rw [hnil] at this
  exact h (List.length_eq_zero.mp this.symm)

/-- Python list indexing `l[i]` for a decoded integer index: a
non-negative index reads position `i` and raises `IndexError` (here
`none`) past the end; a negative index reads `l[len(l) + i]` and raises
below `-len(l)`. -/
def pyIndex {α : Type _} (l : List α) (i : Int) : Option α :=
  if 0 ≤ i then l.get? i.toNat
  else if (l.length : Int) + i < 0 then none
  else l.get? ((l.length : Int) + i).toNat

def list_games (t : TemplateTree) : List String :=
  sortedLower (alKeys t)

def list_cheats (t : TemplateTree) (gidx : Int) : List String :=
  let games := list_games t
  if gidx < 0 ∨ (games.length : Int) ≤ gidx then []
  else
    let game := games.getD gidx.toNat ""
    sortedLower (alKeys (alGetD game t []))

def list_names (t : TemplateTree) (gidx cidx : Int) : List String :=
  let games := list_games t
  if gidx < 0 ∨ (games.length : Int) ≤ gidx then []
  else
    let game := games.getD gidx.toNat ""
    let cheats := list_cheats t gidx
    if cidx < 0 ∨ (cheats.length : Int) ≤ cidx then []
    else
      let cheat := cheats.getD cidx.toNat ""
      sortedLower (alKeys (alGetD cheat (alGetD game t []) []))

/-! ### Resolving an index token (`choose_name`, `bot.py` 610-636)

`choose_name` (and identically `tpl_preview` at 638-666 and `tpl_send`
at 668-703) decodes `gidx`, `cidx`, `nidx` from the callback token,
recomputes the three sorted listings, answers "Не найдено" (`notFound`)
when any of the three listings is empty, and otherwise runs
`games[gidx]`, `cheats[cidx]`, `names[nidx]`: plain Python indexing,
whose `IndexError` is not caught by the handler (`crash`). -/

inductive ResolveOutcome where
  | notFound
  | ok (game cheat name : String) (entry : TplEntry)
  | crash
deriving DecidableEq

def choose_name (t : TemplateTree) (gidx cidx nidx : Int) : ResolveOutcome :=
  let games := list_games t
  let cheats := list_cheats t gidx
  let names := list_names t gidx cidx
  if games.isEmpty ∨ cheats.isEmpty ∨ names.isEmpty then .notFound
  else
    match pyIndex games gidx with
    | none => .crash
    | some game =>
      match pyIndex cheats cidx with
      | none => .crash
      | some cheat =>
        match pyIndex names nidx with
        | none => .crash
        | some name =>
          .ok game cheat name
            (alGetD name (alGetD cheat (alGetD game t []) []) ⟨"", none, []⟩)

/-- C1 (code bug): on the tree `{"G": {"C": {"A": entry}}}` the listing at
the name level is `["A"]` of size 1; the in-range index 0 resolves, but the
stale token index `nidx = 1 ≥ len(names)` makes `choose_name` evaluate
`names[1]` — an uncaught `IndexError` (`crash`) — instead of the "not
found" staleness answer the specification requires. -/
theorem choose_name_stale_nidx_crashes :
    list_names [("G", [("C", [("A", ⟨"hello", none, []⟩)])])] 0 0 = ["A"] ∧
    choose_name [("G", [("C", [("A", ⟨"hello", none, []⟩)])])] 0 0 0
      = ResolveOutcome.ok "G" "C" "A" ⟨"hello", none, []⟩ ∧
    choose_name [("G", [("C", [("A", ⟨"hello", none, []⟩)])])] 0 0 1
      = ResolveOutcome.crash := by
  refine ⟨?_, ?_, ?_⟩ <;> rfl

/-! ### The startup migration (`migrate_templates_per_user`, `bot.py` 180-192)

The `templates` section of the storage document is shape-agnostic JSON
here, since the legacy layout nests one level less than the per-user
layout.  `_looks_like_user_key` strips leading `-`, then requires a
non-empty all-digit remainder (`str.isdigit`, exact on ASCII) of length
at least 5.  The migration wraps the whole section under
`str(OWNER_ID)` — or under the fallback namespace `"0"` when no owner
is configured — whenever some top-level key fails that test. -/

inductive JVal where
  | jNull
  | jStr (s : String)
  | jInt (n : Int)
  | jArr (items : List JVal)
  | jObj (entries : List (String × JVal))

def looks_like_user_key (k : String) : Bool :=
  let s := k.data.dropWhile (· == '-')
  !s.isEmpty && s.all (·.isDigit) && decide (5 ≤ s.length)

def migrate_templates_per_user (ownerId : Int) (tpls : List (String × JVal)) :
    List (String × JVal) :=
  if tpls.isEmpty then tpls
  else if !(tpls.all fun p => looks_like_user_key p.1) then
    let ns := if ownerId ≠ 0 then toString ownerId else "0"
    [(ns, JVal.jObj tpls)]
  else tpls

/-- Keys of the object one level below the first top-level key; used to
tell apart a once-wrapped from a twice-wrapped `templates` section. -/
def sndLevelKeys (l : List (String × JVal)) : List String :=
  match l with
  | (_, JVal.jObj m) :: _ => m.map Prod.fst
  | _ => []

/-- C2 (code bug): with no owner configured the fallback namespace is
`"0"`, which fails the `_looks_like_user_key` test (fewer than 5 digits),
so a second run of the migration wraps the already-migrated document
again instead of being a no-op. -/
theorem migrate_fallback_rewraps :
    migrate_templates_per_user 0 [("SomeGame", JVal.jObj [])]
      = [("0", JVal.jObj [("SomeGame", JVal.jObj [])])] ∧
    migrate_templates_per_user 0
        (migrate_templates_per_user 0 [("SomeGame", JVal.jObj [])])
      = [("0", JVal.jObj [("0", JVal.jObj [("SomeGame", JVal.jObj [])])])] ∧
    migrate_templates_per_user 0
        (migrate_templates_per_user 0 [("SomeGame", JVal.jObj [])])
      ≠ migrate_templates_per_user 0 [("SomeGame", JVal.jObj [])] := by
  refine ⟨rfl, rfl, fun h => ?_⟩
  have hkeys := congrArg sndLevelKeys h
  revert hkeys
  decide

/-! ### Reads that insert (`tpls_of`, `bot.py` 194-195)

`tpls_of(uid)` is `storage.setdefault("templates", {}).setdefault(str(uid), {})`:
it returns the per-actor tree and, when the actor has no entry yet,
inserts a fresh empty one into the shared document as a side effect.
`list_games(uid)` (`bot.py` 311-312) reads through it, so every
browse/listing path carries the same effect; the embedding threads the
mutated `templates` map explicitly. -/

def tpls_of (templates : List (String × TemplateTree)) (uid : Int) :
    TemplateTree × List (String × TemplateTree) :=
  match alGet (toString uid) templates with
  | some t => (t, templates)
  | none => ([], templates ++ [(toString uid, [])])

def list_games_stateful (templates : List (String × TemplateTree)) (uid : Int) :
    List String × List (String × TemplateTree) :=
  let p := tpls_of templates uid
  (sortedLower (alKeys p.1), p.2)

/-- C10: `tpls_of` uses `setdefault`, so the read path behind every listing
mutates the document: after `list_games` the templates map always contains
the key `str(uid)`, and when the actor had no entry the map has grown by a
fresh empty namespace — reads are not side-effect-free. -/
theorem list_games_inserts_namespace (templates : List (String × TemplateTree))
    (uid : Int) :
    toString uid ∈ alKeys (list_games_stateful templates uid).2 ∧
    (alGet (toString uid) templates = none →
      (list_games_stateful templates uid).2 = templates ++ [(toString uid, [])] ∧
      (list_games_stateful templates uid).2 ≠ templates) := by
  unfold list_games_stateful tpls_of
  cases h : alGet (toString uid) templates with
  | some t =>
    refine ⟨?_, ?_⟩
    · exact List.mem_map.mpr ⟨(toString uid, t), alGet_mem h, rfl⟩
    · intro hnone
      cases hnone
  | none =>
    refine ⟨?_, ?_⟩
    · simp [alKeys]
    · intro _
      refine ⟨rfl, fun heq => ?_⟩
      have hlen := congrArg List.length heq
      simp at hlen

/-- Witness for `list_games_inserts_namespace` at a concrete state: actor
42 browses an empty document; afterwards the namespace `"42"` exists. -/
theorem list_games_inserts_namespace_witness :
    toString (42 : Int) ∈ alKeys (list_games_stateful [] 42).2 ∧
    (list_games_stateful [] 42).2 = [(toString (42 : Int), [])] ∧
    (list_games_stateful [] 42).2 ≠ [] :=
  ⟨(list_games_inserts_namespace [] 42).1,
   ((list_games_inserts_namespace [] 42).2 rfl).1,
   ((list_games_inserts_namespace [] 42).2 rfl).2⟩

/-! ### Template store mutations

`finalize_template` (`bot.py` 820-833) writes
`tpls.setdefault(game, {}).setdefault(cheat, {})[name] = entry`;
`delete_template_confirm` (`bot.py` 899-930) runs
`del tpls[g][ch][n]` inside `try/except KeyError: pass` and then
collapses emptied ancestors (`del tpls[g][ch]` when empty, then
`del tpls[g]` when empty); `m_import_file` (`bot.py` 975-1011) merges
an incoming tree leaf-by-leaf through `setdefault`, rebuilding each
leaf from `payload.get("text", "")` / `payload.get("photo")` /
`payload.get("buttons", [])` and counting merged leaves.  Aliased
in-place dict mutation is threaded explicitly. -/

def finalize_template (t : TemplateTree) (game cheat name : String)
    (e : TplEntry) : TemplateTree :=
  let p1 := alSetdefault game [] t
  let p2 := alSetdefault cheat [] p1.2
  let cmap1 := alSet name e p2.2
  alSet game (alSet cheat cmap1 p2.1) p1.1

def delete_template (t : TemplateTree) (g ch n : String) : TemplateTree :=
  match alGet g t with
  | none => t
  | some cmap =>
    match alGet ch cmap with
    | none => t
    | some nmap =>
      match alGet n nmap with
      | none => t
      | some _ =>
        let nmap1 := alErase n nmap
        let cmap1 := if nmap1.isEmpty then alErase ch cmap else alSet ch nmap1 cmap
        if cmap1.isEmpty then alErase g t else alSet g cmap1 t

def mergeNames (dst : NameMap) : NameMap → NameMap × Nat
  | [] => (dst, 0)
  | (name, payload) :: rest =>
      let dst1 := alSet name ⟨payload.text, payload.photo, payload.buttons⟩ dst
      let r := mergeNames dst1 rest
      (r.1, r.2 + 1)

def mergeCheats (dst : CheatMap) : CheatMap → CheatMap × Nat
  | [] => (dst, 0)
  | (cheat, names) :: rest =>
      let p := alSetdefault cheat [] dst
      let m := mergeNames p.2 names
      let r := mergeCheats (alSet cheat m.1 p.1) rest
      (r.1, r.2 + m.2)

def mergeGames (dst : TemplateTree) : TemplateTree → TemplateTree × Nat
  | [] => (dst, 0)
  | (game, cheats) :: rest =>
      let p := alSetdefault game [] dst
      let m := mergeCheats p.2 cheats
      let r := mergeGames (alSet game m.1 p.1) rest
      (r.1, r.2 + m.2)

def m_import_merge (tpls incoming : TemplateTree) : TemplateTree × Nat :=
  mergeGames tpls incoming

/-- The no-dangling-containers invariant on a persisted tree: no category
map and no subcategory map is empty. -/
def NoEmpty (t : TemplateTree) : Prop :=
  ∀ p ∈ t, p.2 ≠ [] ∧ ∀ q ∈ p.2, q.2 ≠ []

theorem isEmpty_false_of_ne_nil {α : Type _} {l : List α} (h : l ≠ []) :
    l.isEmpty = false := by
  cases l with
  | nil => exact absurd rfl h
  | cons x xs => rfl

theorem noEmpty_finalize (t : TemplateTree) (g c n : String) (e : TplEntry)
    (h : NoEmpty t) : NoEmpty (finalize_template t g c n e) := by
  unfold finalize_template
  cases hg : alGet g t with
  | none =>
    simp only [alSetdefault, hg, alGet]
    rw [show alSet n e ([] : NameMap) = [(n, e)] from rfl,
      show alSet c [(n, e)] ([] ++ [(c, ([] : NameMap))]) = [(c, [(n, e)])] by
        simp [alSet],
      alSet_append_self _ _ hg]
    intro p hp
    rcases List.mem_append.mp hp with hpt | hpg
    · exact h p hpt
    · simp only [List.mem_singleton] at hpg
      subst hpg
      refine ⟨by simp, ?_⟩
      intro q hq
      simp only [List.mem_singleton] at hq
      subst hq
      simp
  | some gmap =>
    obtain ⟨-, hgm⟩ := h _ (alGet_mem hg)
    simp only [alSetdefault, hg]
    cases hc : alGet c gmap with
    | none =>
      simp only [hc]
      rw [show alSet n e ([] : NameMap) = [(n, e)] from rfl,
        alSet_append_self _ _ hc]
      intro p hp
      rcases mem_alSet hp with rfl | hpt
      · refine ⟨by simp, ?_⟩
        intro q hq
        rcases List.mem_append.mp hq with h1 | h1
        · exact hgm q h1
        · simp only [List.mem_singleton] at h1
          subst h1
          simp
      · exact h p hpt
    | some cmap =>
      simp only [hc]
      intro p hp
      rcases mem_alSet hp with rfl | hpt
      · refine ⟨alSet_ne_nil _ _ _, ?_⟩
        intro q hq
        rcases mem_alSet hq with rfl | hqg
        · exact alSet_ne_nil _ _ _
        · exact hgm q hqg
      · exact h p hpt

theorem noEmpty_delete (t : TemplateTree) (g c n : String)
    (h : NoEmpty t) : NoEmpty (delete_template t g c n) := by
  unfold delete_template
  split
  · exact h
  rename_i cmap hg
  split
  · exact h
  rename_i nmap hc
  split
  · exact h
  rename_i e0 hn
  obtain ⟨-, hcm⟩ := h _ (alGet_mem hg)
  by_cases hne : (alErase n nmap).isEmpty = true
  · simp only [hne, if_true]
    by_cases hce : (alErase c cmap).isEmpty = true
    · simp only [hce, if_true]
      intro p hp
      exact h p (mem_alErase hp)
    · simp only [Bool.not_eq_true] at hce
      simp only [hce, Bool.false_eq_true, if_false]
      intro p hp
      rcases mem_alSet hp with rfl | hpt
      · refine ⟨?_, ?_⟩
        · intro hnil
          have hnil2 : alErase c cmap = [] := hnil
          rw [hnil2] at hce
          cases hce
        · intro q hq
          exact hcm q (mem_alErase hq)
      · exact h p hpt
  · simp only [Bool.not_eq_true] at hne
    simp only [hne, Bool.false_eq_true, if_false]
    have hset : ((alSet c (alErase n nmap) cmap).isEmpty) = false :=
      isEmpty_false_of_ne_nil (alSet_ne_nil _ _ _)
    simp only [hset, Bool.false_eq_true, if_false]
    intro p hp
    rcases mem_alSet hp with rfl | hpt
    · refine ⟨alSet_ne_nil _ _ _, ?_⟩
      intro q hq
      rcases mem_alSet hq with rfl | hqc
      · intro hnil
        have hnil2 : alErase n nmap = [] := hnil
        rw [hnil2] at hne
        cases hne
      · exact hcm q hqc
    · exact h p hpt

inductive TplOp where
  | put (game cheat name : String) (e : TplEntry)
  | del (game cheat name : String)

def applyOp (t : TemplateTree) : TplOp → TemplateTree
  | .put g c n e => finalize_template t g c n e
  | .del g c n => delete_template t g c n

def applyOps (t : TemplateTree) : List TplOp → TemplateTree
  | [] => t
  | op :: rest => applyOps (applyOp t op) rest

/-- C3 counterexample: importing the payload `{"G": {}}` — a dict, so it
passes the `isinstance` check — executes `tpls.setdefault("G", {})`, finds
no subcategory to merge, and leaves the empty category map `{"G": {}}` in
the persisted tree, violating the no-dangling-containers invariant. -/
theorem import_leaves_empty_category :
    (m_import_merge [] [("G", [])]).1 = [("G", [])] ∧
    ¬ NoEmpty (m_import_merge [] [("G", [])]).1 := by
  refine ⟨rfl, ?_⟩
  intro h
  have := (h ("G", []) (by rw [show (m_import_merge [] [("G", [])]).1
    = [("G", [])] from rfl]; simp)).1
  exact this rfl

/-- C3 (amended): every sequence of `put` (`finalize_template`) and
`delete` (`delete_template_confirm`) operations preserves the
no-dangling-containers invariant — after each operation no category or
subcategory map is empty; `m_import_file`, excluded by the
counterexample, can violate it. -/
theorem applyOps_preserves_noEmpty (ops : List TplOp) (t : TemplateTree)
    (h : NoEmpty t) : NoEmpty (applyOps t ops) := by
  induction ops generalizing t with
  | nil => exact h
  | cons op rest ih =>
    cases op with
    | put g c n e => exact ih _ (noEmpty_finalize t g c n e h)
    | del g c n => exact ih _ (noEmpty_delete t g c n h)

/-- Witness for `applyOps_preserves_noEmpty`: from the empty tree, a put
followed by the delete of the same leaf keeps the invariant (the delete
collapses the emptied subcategory and category). -/
theorem applyOps_preserves_noEmpty_witness :
    NoEmpty ([] : TemplateTree) ∧
    NoEmpty (applyOps []
      [TplOp.put "g" "c" "n" ⟨"txt", none, []⟩, TplOp.del "g" "c" "n"]) ∧
    applyOps []
      [TplOp.put "g" "c" "n" ⟨"txt", none, []⟩, TplOp.del "g" "c" "n"] = [] := by
  have h0 : NoEmpty ([] : TemplateTree) := by
    intro p hp
    cases hp
  exact ⟨h0, applyOps_preserves_noEmpty _ _ h0, rfl⟩

/-! ### Export / import round trip (`m_export` at `bot.py` 957-965,
`m_import_file` at 975-1011)

`m_export` serializes the actor's tree with `json.dumps` and
`m_import_file` parses the uploaded file with `json.load`; on the
well-formed trees of the claim (every leaf a dict with the `text`,
`photo`, `buttons` fields, which `TplEntry` makes intrinsic) that
serialization round trip is the identity, so `exportAll` carries the
tree across unchanged and the interesting content is the merge loop. -/

def exportAll (t : TemplateTree) : TemplateTree := t

def cheatLeafCount : CheatMap → Nat
  | [] => 0
  | (_, nm) :: rest => nm.length + cheatLeafCount rest

def leafCount : TemplateTree → Nat
  | [] => 0
  | (_, cm) :: rest => cheatLeafCount cm + leafCount rest

/-- A tree that can come from Python dicts: keys are unique at every
level. -/
def WellKeyed (t : TemplateTree) : Prop :=
  (alKeys t).Nodup ∧ ∀ p ∈ t, (alKeys p.2).Nodup ∧ ∀ q ∈ p.2, (alKeys q.2).Nodup

theorem mergeNames_rt :
    ∀ (names dst : NameMap),
      (∀ k ∈ alKeys names, alGet k dst = none) → (alKeys names).Nodup →
      mergeNames dst names = (dst ++ names, names.length) := by
  intro names
  induction names with
  | nil => intro dst _ _; simp [mergeNames]
  | cons p rest ih =>
    intro dst hdisj hnd
    obtain ⟨name, payload⟩ := p
    have h1 : alGet name dst = none := hdisj name (by simp [alKeys])
    simp only [alKeys, List.map_cons, List.nodup_cons] at hnd
    have heta : (⟨payload.text, payload.photo, payload.buttons⟩ : TplEntry)
        = payload := rfl
    have hdisj2 : ∀ k ∈ alKeys rest, alGet k (dst ++ [(name, payload)]) = none := by
      intro k hk
      rw [alGet_append_right _ (hdisj k (by simp only [alKeys, List.map_cons]; exact List.mem_cons_of_mem _ hk))]
      have hkn : ¬ name = k := by
        intro hcontra
        exact hnd.1 (hcontra ▸ hk)
      simp [alGet, hkn]
    show (let dst1 := alSet name ⟨payload.text, payload.photo, payload.buttons⟩ dst
          let r := mergeNames dst1 rest
          (r.1, r.2 + 1)) = _
    simp only [heta, alSet_of_alGet_none _ h1, ih _ hdisj2 hnd.2]
    simp

theorem mergeCheats_rt :
    ∀ (cheats dst : CheatMap),
      (∀ k ∈ alKeys cheats, alGet k dst = none) → (alKeys cheats).Nodup →
      (∀ q ∈ cheats, (alKeys q.2).Nodup) →
      mergeCheats dst cheats = (dst ++ cheats, cheatLeafCount cheats) := by
  intro cheats
  induction cheats with
  | nil => intro dst _ _ _; simp [mergeCheats, cheatLeafCount]
  | cons p rest ih =>
    intro dst hdisj hnd hsub
    obtain ⟨cheat, names⟩ := p
    have h1 : alGet cheat dst = none := hdisj cheat (by simp [alKeys])
    simp only [alKeys, List.map_cons, List.nodup_cons] at hnd
    have hnames : mergeNames ([] : NameMap) names = (names, names.length) :=
      mergeNames_rt names [] (fun k _ => rfl) (hsub (cheat, names) (by simp))
    have hd2 : alSet cheat names (dst ++ [(cheat, ([] : NameMap))])
        = dst ++ [(cheat, names)] := alSet_append_self _ _ h1
    have hdisj2 : ∀ k ∈ alKeys rest, alGet k (dst ++ [(cheat, names)]) = none := by
      intro k hk
      rw [alGet_append_right _ (hdisj k (by simp only [alKeys, List.map_cons]; exact List.mem_cons_of_mem _ hk))]
      have hkn : ¬ cheat = k := fun hcontra => hnd.1 (hcontra ▸ hk)
      simp [alGet, hkn]
    have hsub2 : ∀ q ∈ rest, (alKeys q.2).Nodup :=
      fun q hq => hsub q (List.mem_cons_of_mem _ hq)
    show (let p := alSetdefault cheat ([] : NameMap) dst
          let m := mergeNames p.2 names
          let r := mergeCheats (alSet cheat m.1 p.1) rest
          (r.1, r.2 + m.2)) = _
    simp only [alSetdefault, h1, hnames, hd2, ih _ hdisj2 hnd.2 hsub2]
    simp only [List.append_assoc, List.singleton_append, cheatLeafCount,
      Prod.mk.injEq]
    exact ⟨trivial, by omega⟩

theorem mergeGames_rt :
    ∀ (games dst : TemplateTree),
      (∀ k ∈ alKeys games, alGet k dst = none) → (alKeys games).Nodup →
      (∀ p ∈ games, (alKeys p.2).Nodup ∧ ∀ q ∈ p.2, (alKeys q.2).Nodup) →
      mergeGames dst games = (dst ++ games, leafCount games) := by
  intro games
  induction games with
  | nil => intro dst _ _ _; simp [mergeGames, leafCount]
  | cons p rest ih =>
    intro dst hdisj hnd hsub
    obtain ⟨game, cheats⟩ := p
    have h1 : alGet game dst = none := hdisj game (by simp [alKeys])
    simp only [alKeys, List.map_cons, List.nodup_cons] at hnd
    have hcheats : mergeCheats ([] : CheatMap) cheats
        = (cheats, cheatLeafCount cheats) :=
      mergeCheats_rt cheats [] (fun k _ => rfl)
        (hsub (game, cheats) (by simp)).1 (hsub (game, cheats) (by simp)).2
    have hd2 : alSet game cheats (dst ++ [(game, ([] : CheatMap))])
        = dst ++ [(game, cheats)] := alSet_append_self _ _ h1
    have hdisj2 : ∀ k ∈ alKeys rest, alGet k (dst ++ [(game, cheats)]) = none := by
      intro k hk
      rw [alGet_append_right _
        (hdisj k (by simp only [alKeys, List.map_cons]; exact List.mem_cons_of_mem _ hk))]
      have hkn : ¬ game = k := fun hcontra => hnd.1 (hcontra ▸ hk)
      simp [alGet, hkn]
    have hsub2 : ∀ p ∈ rest, (alKeys p.2).Nodup ∧ ∀ q ∈ p.2, (alKeys q.2).Nodup :=
      fun p hp => hsub p (List.mem_cons_of_mem _ hp)
    show (let p := alSetdefault game ([] : CheatMap) dst
          let m := mergeCheats p.2 cheats
          let r := mergeGames (alSet game m.1 p.1) rest
          (r.1, r.2 + m.2)) = _
    simp only [alSetdefault, h1, hcheats, hd2, ih _ hdisj2 hnd.2 hsub2]
    simp only [List.append_assoc, List.singleton_append, leafCount, Prod.mk.injEq]
    exact ⟨trivial, by omega⟩

/-- C4: exporting a well-formed template tree and importing it into an
empty per-actor tree reproduces the tree exactly — same category,
subcategory and name structure, same text, photo refs and button
matrices — and the reported merged count is the number of leaves. -/
theorem export_import_roundtrip (t : TemplateTree) (h : WellKeyed t) :
    m_import_merge [] (exportAll t) = (t, leafCount t) := by
  unfold m_import_merge exportAll
  have := mergeGames_rt t [] (fun k _ => rfl) h.1 h.2
  simpa using this

/-- Witness for `export_import_roundtrip` on a concrete two-leaf tree. -/
theorem export_import_roundtrip_witness :
    WellKeyed [("G", [("C", [("A", ⟨"a", some "ph", [[⟨"Buy", "https://s"⟩]]⟩),
                             ("B", ⟨"b", none, []⟩)])])] ∧
    m_import_merge []
        (exportAll [("G", [("C", [("A", ⟨"a", some "ph", [[⟨"Buy", "https://s"⟩]]⟩),
                                  ("B", ⟨"b", none, []⟩)])])])
      = ([("G", [("C", [("A", ⟨"a", some "ph", [[⟨"Buy", "https://s"⟩]]⟩),
                        ("B", ⟨"b", none, []⟩)])])], 2) := by
  have hwk : WellKeyed [("G", [("C", [("A", ⟨"a", some "ph", [[⟨"Buy", "https://s"⟩]]⟩),
      ("B", ⟨"b", none, []⟩)])])] := by
    refine ⟨by simp [alKeys], ?_⟩
    intro p hp
    simp only [List.mem_singleton] at hp
    subst hp
    refine ⟨by simp [alKeys], ?_⟩
    intro q hq
    simp only [List.mem_singleton] at hq
    subst hq
    simp [alKeys]
  exact ⟨hwk, export_import_roundtrip _ hwk⟩

/-! ### Pagination of the delete menu (`_delete_menu_page`, `bot.py` 848-869)

The Python handler receives an arbitrary integer page number via the
callback data (`m:delp:<page>` parsed with `int`), clamps it with
`page = max(0, min(page, max_page))` where
`max_page = max(0, (total - 1) // PAGE_SIZE) if total else 0`, and then
renders the item indices `range(start, end)` with
`start = page * PAGE_SIZE` and `end = min(start + PAGE_SIZE, total)`.
Python `//` is floor division, embedded as `Int.fdiv`. -/

def PAGE_SIZE : Int := 20

structure PageRender where
  page : Int
  maxPage : Int
  startIdx : Int
  endIdx : Int
  shown : List Int
deriving DecidableEq

def delete_menu_page (items : List (String × String × String)) (pageReq : Int) :
    PageRender :=
  let total : Int := items.length
  let maxPage : Int := if total ≠ 0 then max 0 ((total - 1).fdiv PAGE_SIZE) else 0
  let page := max 0 (min pageReq maxPage)
  let s := page * PAGE_SIZE
  let e := min (s + PAGE_SIZE) total
  ⟨page, maxPage, s, e, (List.range (e - s).toNat).map (fun i : Nat => s + (i : Int))⟩

/-- C9: for every pending-deletes item list and every requested page number
(including negative and past-the-end values), `_delete_menu_page` clamps the
page into `[0, max_page]` with `max_page = max 0 ((total - 1) fdiv PAGE_SIZE)`,
and every rendered item index lies inside the bounds of the item list. -/
theorem delete_menu_page_clamps (items : List (String × String × String))
    (pageReq : Int) :
    0 ≤ (delete_menu_page items pageReq).page ∧
    (delete_menu_page items pageReq).page ≤ (delete_menu_page items pageReq).maxPage ∧
    (delete_menu_page items pageReq).maxPage
      = max 0 (((items.length : Int) - 1).fdiv PAGE_SIZE) ∧
    ∀ i ∈ (delete_menu_page items pageReq).shown,
      0 ≤ i ∧ i < (items.length : Int) := by
  have h20 : PAGE_SIZE = 20 := rfl
  unfold delete_menu_page
  simp only [h20]
  set total : Int := (items.length : Int) with htot
  set maxPage : Int := if total ≠ 0 then max 0 ((total - 1).fdiv 20) else 0 with hmpdef
  set page : Int := max 0 (min pageReq maxPage) with hpg
  have hmp0 : 0 ≤ maxPage := by
    rw [hmpdef]
    split
    · exact le_max_left _ _
    · exact le_refl 0
  have hpage0 : 0 ≤ page := le_max_left _ _
  have hpagemax : page ≤ maxPage := max_le hmp0 (min_le_right _ _)
  refine ⟨hpage0, hpagemax, ?_, ?_⟩
  · rw [hmpdef]
    split
    · rfl
    · rename_i h
      have hz : total = 0 := by omega
      rw [hz]
      have hneg : ((0 : Int) - 1).fdiv 20 = -1 := by decide
      rw [hneg]
      simp
  · intro i hi
    simp only [List.mem_map, List.mem_range] at hi
    obtain ⟨j, hj, rfl⟩ := hi
    set E : Int := min (page * 20 + 20) total with hE
    have hEt : E ≤ total := min_le_right _ _
    clear_value E
    clear hE
    clear_value page
    clear hpg hpagemax
    clear_value maxPage
    rcases le_or_lt (E - page * 20) 0 with hle | hlt
    · rw [Int.toNat_of_nonpos hle] at hj
      exact absurd hj (Nat.not_lt_zero j)
    · have hcast : ((E - page * 20).toNat : Int) = E - page * 20 :=
        Int.toNat_of_nonneg (le_of_lt hlt)
      have hj2 : (j : Int) < E - page * 20 := by
        rw [← hcast]
        exact_mod_cast hj
      constructor
      · omega
      · omega

/-- Witness for `delete_menu_page_clamps`: three items, requested page
`-5`; the clamped page is `0` and the rendered index `0` is in bounds. -/
theorem delete_menu_page_clamps_witness :
    (0 : Int) ∈ (delete_menu_page
      [("g", "c", "a"), ("g", "c", "b"), ("g", "c", "d")] (-5)).shown ∧
    (0 ≤ (0 : Int) ∧ (0 : Int) <
      (([("g", "c", "a"), ("g", "c", "b"), ("g", "c", "d")]
        : List (String × String × String)).length : Int)) :=
  ⟨by decide,
   (delete_menu_page_clamps
     [("g", "c", "a"), ("g", "c", "b"), ("g", "c", "d")] (-5)).2.2.2 0 (by decide)⟩

/-! ### The access gate (`AdminGuard`, `bot.py` 407-428; `is_owner` /
`is_admin` / `admin_only`, 229-236)

The middleware takes `uid` from `event.from_user.id` when a sender is
attached (`None` otherwise), passes the event straight to the wrapped
handler on `if not uid:` — which is taken both for `None` and for the
falsy id `0` — and otherwise answers the fixed denial text and returns
without calling the handler when `admin_only(uid)` fails.  The stored
state a handler could mutate (admins, channels, templates) and the
audit trail written by `log_action` live in `BotState`. -/

structure BotState where
  admins : List Int
  channels : List (String × Int)
  templates : List (String × TemplateTree)
  audit : List String
deriving DecidableEq

def is_owner (ownerId uid : Int) : Bool :=
  ownerId ≠ 0 && uid = ownerId

def is_admin (st : BotState) (uid : Int) : Bool :=
  st.admins.contains uid

def admin_only (ownerId : Int) (st : BotState) (uid : Int) : Bool :=
  is_owner ownerId uid || is_admin st uid

inductive GuardOutcome where
  | denialSent
  | handlerRun
deriving DecidableEq

def admin_guard (ownerId : Int) (st : BotState) (uidOpt : Option Int)
    (handler : BotState → BotState) : BotState × GuardOutcome :=
  if uidOpt = none ∨ uidOpt = some 0 then (handler st, .handlerRun)
  else if !(admin_only ownerId st (uidOpt.getD 0)) then (st, .denialSent)
  else (handler st, .handlerRun)

/-- A wrapped handler that both mutates stored state and writes an audit
line; used to observe whether the guard really short-circuited. -/
def auditingHandler : BotState → BotState :=
  fun st => ⟨st.admins, st.channels, st.templates, "privileged action" :: st.audit⟩

/-- C5 counterexample: with owner `5` and admins `{5}`, the sender id `0`
is neither the owner nor an admin, yet `if not uid:` treats the falsy id
`0` like a missing sender and the guard runs the wrapped handler — state
is mutated and an audit line is written instead of the denial. -/
theorem admin_guard_uid_zero_bypasses :
    admin_only 5 ⟨[5], [], [], []⟩ 0 = false ∧
    admin_guard 5 ⟨[5], [], [], []⟩ (some 0) auditingHandler
      = (⟨[5], [], [], ["privileged action"]⟩, GuardOutcome.handlerRun) := by
  exact ⟨rfl, rfl⟩

/-- C5 (amended): for every event whose sender uid is nonzero and neither
the configured owner nor a member of the stored admins set, `AdminGuard`
answers the fixed denial and never invokes the wrapped handler, so the
stored state — templates, channels, admins — and the audit trail are
untouched; a missing sender or the falsy id `0` bypasses the gate
entirely. -/
theorem admin_guard_denies_unauthorized (ownerId : Int) (st : BotState)
    (uid : Int) (handler : BotState → BotState) (hz : uid ≠ 0)
    (hna : admin_only ownerId st uid = false) :
    admin_guard ownerId st (some uid) handler = (st, GuardOutcome.denialSent) := by
  unfold admin_guard
  have h1 : ¬ (some uid = none ∨ some uid = some 0) := by
    intro h
    rcases h with h | h
    · cases h
    · exact hz (Option.some.injEq _ _ ▸ h)
  rw [if_neg h1]
  simp [hna]

/-- Witness for `admin_guard_denies_unauthorized`: uid `7` against owner
`5` with admins `{5}` gets the denial and the state is unchanged. -/
theorem admin_guard_denies_unauthorized_witness :
    admin_guard 5 ⟨[5], [], [], []⟩ (some 7) auditingHandler
      = (⟨[5], [], [], []⟩, GuardOutcome.denialSent) :=
  admin_guard_denies_unauthorized 5 ⟨[5], [], [], []⟩ 7 auditingHandler
    (by decide) (by decide)

/-! ### The admin roster (`seed_admins` at `bot.py` 197-202, `add_admin`
at 1219-1233, `del_admin` at 1245-1263)

Python keeps `storage["admins"]` as `sorted(set(...))`: the seed is the
stored list unioned with the configured `ADMIN_IDS` plus the owner when
`OWNER_ID` is non-zero; `add_admin` adds one id and re-sorts;
`del_admin` removes the given id — whatever it is — when present.
`sortedSet` computes the sorted deduplicated sequence of a list, which
is exactly what `sorted(set(l))` returns. -/

def insortedDedup (x : Int) : List Int → List Int
  | [] => [x]
  | y :: ys =>
      if x < y then x :: y :: ys
      else if x = y then y :: ys
      else y :: insortedDedup x ys

def sortedSet (l : List Int) : List Int := l.foldr insortedDedup []

def seed_admins (stored adminIds : List Int) (ownerId : Int) : List Int :=
  sortedSet (stored ++ adminIds ++ (if ownerId ≠ 0 then [ownerId] else []))

def add_admin (stored : List Int) (uid : Int) : List Int :=
  sortedSet (uid :: stored)

def del_admin (stored : List Int) (uid : Int) : List Int :=
  if uid ∈ stored then sortedSet (stored.filter (fun x => x != uid)) else stored

theorem mem_insortedDedup {x a : Int} :
    ∀ {l : List Int}, a ∈ insortedDedup x l ↔ a = x ∨ a ∈ l := by
  intro l
  induction l with
  | nil => simp [insortedDedup]
  | cons y ys ih =>
    rw [insortedDedup]
    by_cases h1 : x < y
    · rw [if_pos h1]
      simp
    · rw [if_neg h1]
      by_cases h2 : x = y
      · rw [if_pos h2]
        subst h2
        simp only [List.mem_cons]
        constructor
        · intro h; exact Or.inr h
        · intro h
          rcases h with rfl | h
          · exact Or.inl rfl
          · exact h
      · rw [if_neg h2]
        simp only [List.mem_cons, ih]
        tauto

theorem sorted_insortedDedup (x : Int) :
    ∀ {l : List Int}, l.Sorted (· < ·) → (insortedDedup x l).Sorted (· < ·) := by
  intro l
  induction l with
  | nil => intro _; simp [insortedDedup]
  | cons y ys ih =>
    intro hs
    rcases List.sorted_cons.mp hs with ⟨hy, hys⟩
    rw [insortedDedup]
    by_cases h1 : x < y
    · rw [if_pos h1]
      refine List.sorted_cons.mpr ⟨?_, hs⟩
      intro b hb
      rcases List.mem_cons.mp hb with rfl | hb2
      · exact h1
      · exact lt_trans h1 (hy b hb2)
    · rw [if_neg h1]
      by_cases h2 : x = y
      · rw [if_pos h2]
        exact hs
      · rw [if_neg h2]
        refine List.sorted_cons.mpr ⟨?_, ih hys⟩
        intro b hb
        rcases mem_insortedDedup.mp hb with rfl | hb2
        · omega
        · exact hy b hb2

theorem sorted_sortedSet : ∀ (l : List Int), (sortedSet l).Sorted (· < ·) := by
  intro l
  induction l with
  | nil => simp [sortedSet]
  | cons y ys ih => exact sorted_insortedDedup y ih

theorem nodup_sortedSet (l : List Int) : (sortedSet l).Nodup :=
  (sorted_sortedSet l).nodup

theorem mem_sortedSet {a : Int} : ∀ {l : List Int}, a ∈ sortedSet l ↔ a ∈ l := by
  intro l
  induction l with
  | nil => simp [sortedSet]
  | cons y ys ih =>
    show a ∈ insortedDedup y (sortedSet ys) ↔ _
    rw [mem_insortedDedup]
    simp [ih]

/-- C6 counterexample: from the seeded roster `{12345}` with owner
`12345`, `del_admin` invoked on the owner's own id removes the owner —
the stored admins list no longer contains the configured owner. -/
theorem del_admin_removes_owner :
    (12345 : Int) ∈ seed_admins [] [] 12345 ∧
    del_admin (seed_admins [] [] 12345) 12345 = [] := by
  exact ⟨by decide, by decide⟩

/-- C6 (amended): seeding and every roster mutation keep the stored
admins a duplicate-free sorted list of integers; the configured owner is
in the list after seeding, stays through `add_admin` and through
`del_admin` of any other id — but `del_admin` invoked on the owner's own
id does remove the owner (restored only by the next startup seeding). -/
theorem admin_roster_invariant (stored adminIds : List Int) (ownerId uid : Int) :
    ((seed_admins stored adminIds ownerId).Sorted (· < ·) ∧
     (seed_admins stored adminIds ownerId).Nodup ∧
     (ownerId ≠ 0 → ownerId ∈ seed_admins stored adminIds ownerId)) ∧
    ((add_admin stored uid).Sorted (· < ·) ∧
     (add_admin stored uid).Nodup ∧
     (ownerId ∈ stored → ownerId ∈ add_admin stored uid)) ∧
    ((stored.Sorted (· < ·) →
      (del_admin stored uid).Sorted (· < ·) ∧ (del_admin stored uid).Nodup) ∧
     (ownerId ∈ stored → uid ≠ ownerId → ownerId ∈ del_admin stored uid)) := by
  refine ⟨⟨sorted_sortedSet _, nodup_sortedSet _, ?_⟩,
          ⟨sorted_sortedSet _, nodup_sortedSet _, ?_⟩, ⟨?_, ?_⟩⟩
  · intro hne
    rw [seed_admins, mem_sortedSet]
    simp [hne]
  · intro hmem
    rw [add_admin, mem_sortedSet]
    exact List.mem_cons_of_mem _ hmem
  · intro hsorted
    unfold del_admin
    split
    · exact ⟨sorted_sortedSet _, nodup_sortedSet _⟩
    · exact ⟨hsorted, hsorted.nodup⟩
  · intro hmem hne
    unfold del_admin
    split
    · rw [mem_sortedSet]
      exact List.mem_filter.mpr ⟨hmem, by simp [bne_iff_ne]; omega⟩
    · exact hmem

/-- Witness for `admin_roster_invariant` at concrete rosters: owner
`12345` survives seeding, `add_admin 7`, and `del_admin 5`. -/
theorem admin_roster_invariant_witness :
    (12345 : Int) ∈ seed_admins [] [7] 12345 ∧
    (12345 : Int) ∈ add_admin [12345] 7 ∧
    (del_admin [5, 12345] 5).Sorted (· < ·) ∧
    (12345 : Int) ∈ del_admin [5, 12345] 5 :=
  ⟨(admin_roster_invariant [] [7] 12345 0).1.2.2 (by decide),
   (admin_roster_invariant [12345] [] 12345 7).2.1.2.2 (by decide),
   ((admin_roster_invariant [5, 12345] [] 12345 5).2.2.1 (by decide)).1,
   (admin_roster_invariant [5, 12345] [] 12345 5).2.2.2 (by decide) (by decide)⟩

/-! ### Button-URL collection (`add_btn_url` at `bot.py` 529-543,
`m_btn_url` at 775-793)

Both handlers run `url = (m.text or "").strip()`, re-prompt without
advancing the FSM or touching the draft when the stripped text starts
with neither `http://` nor `https://`, and otherwise append the button
`{label, url}` built from the *stripped* url: the draft handler to the
last row of `d.buttons` (creating a first row when there is none), the
template handler to the FSM-data `row`, advancing to `BTN_MENU`.
`pyStrip` models `str.strip()` on ASCII whitespace. -/

def isPySpace (c : Char) : Bool :=
  c = ' ' || c = '\t' || c = '\n' || c = '\r' || c = '\x0b' || c = '\x0c'

def pyStrip (s : String) : String :=
  ⟨((s.data.dropWhile isPySpace).reverse.dropWhile isPySpace).reverse⟩

def pyStartswith (s p : String) : Bool :=
  p.data.isPrefixOf s.data

def urlOk (url : String) : Bool :=
  pyStartswith url "http://" || pyStartswith url "https://"

structure Draft where
  text : String
  buttons : List (List TplButton)
  photo : Option String
deriving DecidableEq

def updateLast {α : Type _} (f : α → α) : List α → List α
  | [] => []
  | [x] => [f x]
  | x :: y :: xs => x :: updateLast f (y :: xs)

inductive UrlStepResult where
  | rejected (d : Draft)
  | accepted (d : Draft)
deriving DecidableEq

def add_btn_url (input btnText : String) (d : Draft) : UrlStepResult :=
  let url := pyStrip input
  if !(pyStartswith url "http://" || pyStartswith url "https://") then .rejected d
  else
    let bs := if d.buttons.isEmpty then d.buttons ++ [[]] else d.buttons
    .accepted ⟨d.text, updateLast (fun row => row ++ [⟨btnText, url⟩]) bs, d.photo⟩

structure MBtnData where
  matrix : List (List TplButton)
  row : List TplButton
  btnText : String
deriving DecidableEq

inductive MTplState where
  | ADD_BTN_URL
  | BTN_MENU
deriving DecidableEq

def m_btn_url (input : String) (data : MBtnData) : MTplState × MBtnData :=
  let url := pyStrip input
  if !(pyStartswith url "http://" || pyStartswith url "https://") then
    (.ADD_BTN_URL, data)
  else
    (.BTN_MENU, ⟨data.matrix, data.row ++ [⟨data.btnText, url⟩], data.btnText⟩)

theorem updateLast_append_singleton {α : Type _} (f : α → α) :
    ∀ (pre : List α) (last : α), updateLast f (pre ++ [last]) = pre ++ [f last] := by
  intro pre
  induction pre with
  | nil => intro last; rfl
  | cons x xs ih =>
    intro last
    cases xs with
    | nil => rfl
    | cons y ys =>
      show x :: updateLast f ((y :: ys) ++ [last]) = _
      rw [ih last]
      rfl

/-- C7 counterexample: the raw input `" https://x"` (leading blank) starts
with neither `http://` nor `https://`, yet the handler strips it first and
accepts it, mutating the draft — the claim predicts a re-prompt with the
draft unchanged for every such input. -/
theorem url_validation_strips_input :
    pyStartswith " https://x" "http://" = false ∧
    pyStartswith " https://x" "https://" = false ∧
    add_btn_url " https://x" "L" ⟨"", [], none⟩
      = UrlStepResult.accepted ⟨"", [[⟨"L", "https://x"⟩]], none⟩ := by
  exact ⟨rfl, rfl, rfl⟩

/-- C7 (amended): validation applies to the whitespace-stripped input.
When the stripped input starts with neither `http://` nor `https://`,
both handlers re-prompt: the FSM state does not advance and the draft and
template button data are unchanged.  When it does, the button
`{label, stripped url}` is appended — by `add_btn_url` to the open
(last) row of the draft, creating a first row if none exists, and by
`m_btn_url` to the template row, advancing the state to `BTN_MENU`. -/
theorem button_url_validation (input label : String) (d : Draft)
    (data : MBtnData) :
    (urlOk (pyStrip input) = false →
      add_btn_url input label d = UrlStepResult.rejected d ∧
      m_btn_url input data = (MTplState.ADD_BTN_URL, data)) ∧
    (urlOk (pyStrip input) = true →
      (d.buttons = [] →
        add_btn_url input label d
          = UrlStepResult.accepted ⟨d.text, [[⟨label, pyStrip input⟩]], d.photo⟩) ∧
      (∀ pre last, d.buttons = pre ++ [last] →
        add_btn_url input label d
          = UrlStepResult.accepted
              ⟨d.text, pre ++ [last ++ [⟨label, pyStrip input⟩]], d.photo⟩) ∧
      m_btn_url input data
        = (MTplState.BTN_MENU,
           ⟨data.matrix, data.row ++ [⟨data.btnText, pyStrip input⟩],
            data.btnText⟩)) := by
  constructor
  · intro hbad
    rw [urlOk] at hbad
    constructor
    · unfold add_btn_url
      simp [hbad]
    · unfold m_btn_url
      simp [hbad]
  · intro hok
    rw [urlOk] at hok
    refine ⟨?_, ?_, ?_⟩
    · intro hnil
      unfold add_btn_url
      simp [hok, hnil, updateLast]
    · intro pre last hsplit
      unfold add_btn_url
      have hne : ((pre ++ [last]).isEmpty) = false :=
        isEmpty_false_of_ne_nil (by simp)
      simp [hok, hsplit, hne, updateLast_append_singleton]
    · unfold m_btn_url
      simp [hok]

/-- Witness for `button_url_validation`: `ftp://x` is re-prompted with
nothing changed; `https://x` is appended to the open row in both flows. -/
theorem button_url_validation_witness :
    add_btn_url "ftp://x" "L" ⟨"", [], none⟩ = UrlStepResult.rejected ⟨"", [], none⟩ ∧
    m_btn_url "ftp://x" ⟨[], [], "L"⟩ = (MTplState.ADD_BTN_URL, ⟨[], [], "L"⟩) ∧
    add_btn_url "https://x" "Buy" ⟨"t", [], none⟩
      = UrlStepResult.accepted ⟨"t", [[⟨"Buy", "https://x"⟩]], none⟩ ∧
    m_btn_url "https://x" ⟨[[⟨"A", "https://a"⟩]], [⟨"B", "https://b"⟩], "C"⟩
      = (MTplState.BTN_MENU,
         ⟨[[⟨"A", "https://a"⟩]], [⟨"B", "https://b"⟩, ⟨"C", "https://x"⟩], "C"⟩) := by
  refine ⟨?_, ?_, ?_, ?_⟩
  · exact ((button_url_validation "ftp://x" "L" ⟨"", [], none⟩ ⟨[], [], "L"⟩).1
      (by decide)).1
  · exact ((button_url_validation "ftp://x" "L" ⟨"", [], none⟩ ⟨[], [], "L"⟩).1
      (by decide)).2
  · exact (((button_url_validation "https://x" "Buy" ⟨"t", [], none⟩
      ⟨[], [], "C"⟩).2 (by decide)).1 rfl).trans (by decide)
  · exact (((button_url_validation "https://x" "Buy" ⟨"t", [], none⟩
      ⟨[[⟨"A", "https://a"⟩]], [⟨"B", "https://b"⟩], "C"⟩).2 (by decide)).2.2).trans
      (by decide)

/-! ### Loading the storage document (`load_storage`, `bot.py` 63-77;
`DEFAULT_STORAGE`, 55-61)

`load_storage` reads the file if it exists, parses JSON inside
`try/except` (any failure yields `{}`), discards a parse that is not a
dict, and then backfills every missing top-level default key with a
fresh empty container of the default's type, preserving keys that were
present.  The possible file states are enumerated by `FileState`. -/

inductive FileState where
  | absent
  | unreadable
  | nonObject
  | objFile (entries : List (String × JVal))

def parsedData : FileState → List (String × JVal)
  | .absent => []
  | .unreadable => []
  | .nonObject => []
  | .objFile l => l

def freshDefault : JVal → JVal
  | .jObj _ => .jObj []
  | .jArr _ => .jArr []
  | v => v

def DEFAULT_STORAGE : List (String × JVal) :=
  [("admins", JVal.jArr []), ("channels", JVal.jObj []),
   ("channel_titles", JVal.jObj []), ("templates", JVal.jObj [])]

def backfill (data : List (String × JVal)) :
    List (String × JVal) → List (String × JVal)
  | [] => data
  | (k, v) :: rest =>
      backfill (if (alGet k data).isSome then data
                else data ++ [(k, freshDefault v)]) rest

def load_storage (fs : FileState) : List (String × JVal) :=
  backfill (parsedData fs) DEFAULT_STORAGE

theorem backfill_preserves {k : String} {v : JVal} :
    ∀ (defs : List (String × JVal)) (data : List (String × JVal)),
      alGet k data = some v → alGet k (backfill data defs) = some v := by
  intro defs
  induction defs with
  | nil => intro data h; exact h
  | cons p rest ih =>
    intro data h
    obtain ⟨k1, v1⟩ := p
    show alGet k (backfill (if (alGet k1 data).isSome then data
      else data ++ [(k1, freshDefault v1)]) rest) = some v
    by_cases h1 : (alGet k1 data).isSome
    · rw [if_pos h1]
      exact ih data h
    · rw [if_neg h1]
      exact ih _ (alGet_append_left _ h)

theorem backfill_has {k : String} :
    ∀ (defs : List (String × JVal)) (data : List (String × JVal)),
      (∃ v0, (k, v0) ∈ defs) → (alGet k (backfill data defs)).isSome = true := by
  intro defs
  induction defs with
  | nil =>
    intro data h
    obtain ⟨v0, hv0⟩ := h
    cases hv0
  | cons p rest ih =>
    intro data h
    obtain ⟨k1, v1⟩ := p
    obtain ⟨v0, hv0⟩ := h
    show (alGet k (backfill (if (alGet k1 data).isSome then data
      else data ++ [(k1, freshDefault v1)]) rest)).isSome = true
    rcases List.mem_cons.mp hv0 with hhead | htail
    · have hk : k1 = k := by
        have := congrArg Prod.fst hhead
        exact this.symm
      subst hk
      by_cases h1 : (alGet k1 data).isSome
      · rw [if_pos h1]
        obtain ⟨w, hw⟩ := Option.isSome_iff_exists.mp h1
        rw [backfill_preserves rest data hw, Option.isSome_some]
      · rw [if_neg h1]
        have hnone : alGet k1 data = none :=
          Option.not_isSome_iff_eq_none.mp h1
        have hget : alGet k1 (data ++ [(k1, freshDefault v1)])
            = some (freshDefault v1) := by
          rw [alGet_append_right _ hnone]
          simp [alGet]
        rw [backfill_preserves rest _ hget, Option.isSome_some]
    · by_cases h1 : (alGet k1 data).isSome
      · rw [if_pos h1]
        exact ih data ⟨v0, htail⟩
      · rw [if_neg h1]
        exact ih _ ⟨v0, htail⟩

/-- C8: `load_storage` is total over every file state — absent file,
unparsable bytes, JSON that is not an object, or an object with any
subset of keys — and its result always carries the four default
top-level keys, while every key present in a valid object file is
preserved with its original value. -/
theorem load_storage_total (fs : FileState) :
    ((alGet "admins" (load_storage fs)).isSome = true ∧
     (alGet "channels" (load_storage fs)).isSome = true ∧
     (alGet "channel_titles" (load_storage fs)).isSome = true ∧
     (alGet "templates" (load_storage fs)).isSome = true) ∧
    (∀ (l : List (String × JVal)) (k : String) (v : JVal),
      fs = FileState.objFile l → alGet k l = some v →
      alGet k (load_storage fs) = some v) := by
  constructor
  · refine ⟨backfill_has _ _ ⟨JVal.jArr [], ?_⟩, backfill_has _ _ ⟨JVal.jObj [], ?_⟩,
      backfill_has _ _ ⟨JVal.jObj [], ?_⟩, backfill_has _ _ ⟨JVal.jObj [], ?_⟩⟩
    · exact List.mem_cons_self _ _
    · exact List.mem_cons_of_mem _ (List.mem_cons_self _ _)
    · exact List.mem_cons_of_mem _ (List.mem_cons_of_mem _ (List.mem_cons_self _ _))
    · exact List.mem_cons_of_mem _ (List.mem_cons_of_mem _
        (List.mem_cons_of_mem _ (List.mem_cons_self _ _)))
  · intro l k v hfs h
    subst hfs
    exact backfill_preserves _ _ h

/-- Witness for `load_storage_total`: a file holding only an `admins`
list and a foreign key keeps both and gains the other defaults. -/
theorem load_storage_total_witness :
    alGet "admins" (load_storage (FileState.objFile
        [("admins", JVal.jArr [JVal.jInt 5]), ("extra", JVal.jNull)]))
      = some (JVal.jArr [JVal.jInt 5]) ∧
    alGet "extra" (load_storage (FileState.objFile
        [("admins", JVal.jArr [JVal.jInt 5]), ("extra", JVal.jNull)]))
      = some JVal.jNull ∧
    (alGet "templates" (load_storage (FileState.objFile
        [("admins", JVal.jArr [JVal.jInt 5]), ("extra", JVal.jNull)]))).isSome
      = true :=
  ⟨(load_storage_total _).2 _ "admins" _ rfl rfl,
   (load_storage_total _).2 _ "extra" _ rfl rfl,
   (load_storage_total _).1.2.2.2⟩

end TgBot
